import Mathlib

/-!
Verification development for the pinned-block state machine of
`packages/client/src/observableClient/chainHead/streams/pinned-blocks.ts`.

The TypeScript module maintains, via an RxJS `scan`, a snapshot of pinned
blocks (`PinnedBlocks`): a map from block hash to block node, `best` and
`finalized` pointers, and a record of runtime descriptors.  A cleanup
scheduler (`cleaner$`) ticks on an interval, walks the finalized ancestry
collecting zero-refcount blocks, debounces over two consecutive ticks, and
feeds the confirmed set back into the reducer as an `unpin` event.

This file gives a shallow embedding of that module:
* JS `Map` objects and plain records are modelled as insertion-ordered
  association lists (`List (String × _)`), JS `Set` objects as
  insertion-ordered duplicate-free `List String`.
* The `scan` reducer is the function `applyEvent`; a JS `TypeError` raised
  by dereferencing `undefined` (the `!` non-null assertions in the source)
  is modelled as `Except.error`, which kills the fold just as the exception
  kills the RxJS pipeline.
* The cleanup scheduler's per-tick work, including the synchronous
  feedback of the confirmed unpin set into the reducer, is `tickStep`.
-/

/-- JS `Set.add` on an insertion-ordered list: appends unless present. -/
def setAdd (l : List String) (x : String) : List String :=
  if x ∈ l then l else l ++ [x]

section AssocMap

variable {α : Type}

/-- JS `Map.get` / property read on a record object: first binding wins.
(The source never creates duplicate keys, so the choice is immaterial.) -/
def mget : List (String × α) → String → Option α
  | [], _ => none
  | (k', v) :: rest, k => if k' = k then some v else mget rest k

/-- JS `Map.has` (also `key in object`). -/
def mhas (m : List (String × α)) (k : String) : Bool :=
  (mget m k).isSome

/-- JS `Map.set` / property assignment: replaces an existing binding in
place (keeping its position) or appends a fresh one. -/
def mset : List (String × α) → String → α → List (String × α)
  | [], k, v => [(k, v)]
  | (k', v') :: rest, k, v =>
    if k' = k then (k, v) :: rest else (k', v') :: mset rest k v

/-- JS `Map.delete` / `delete object[key]`. -/
def mdelete : List (String × α) → String → List (String × α)
  | [], _ => []
  | (k', v') :: rest, k =>
    if k' = k then mdelete rest k else (k', v') :: mdelete rest k

/-- The keys of a map, in order. -/
def keysOf (m : List (String × α)) : List String :=
  m.map Prod.fst

end AssocMap

/-- Modelled from the spec: the `Runtime` descriptor produced by
`getRuntimeCreator` (file `get-runtime-creator.ts`, not part of the
sources under inspection).  Per spec §4.2 the registry tracks which
tracked blocks currently reference each descriptor; `addBlock` registers
one more block, and `deleteBlocks` bulk-removes blocks and reports the
remaining usage count.  Only the usage-tracking state is relevant to the
reducer; the asynchronous metadata decoding carried by the real
descriptor is outside the fold and is not modelled. -/
structure Runtime where
  usages : List String
deriving Repr, DecidableEq

/-- Modelled from the spec: `getRuntime(hash)` creates a descriptor for
`hash`; the creating block references it (spec §2: the registry
"reference-counts which blocks use a given descriptor"). -/
def getRuntime (hash : String) : Runtime :=
  ⟨[hash]⟩

/-- Spec §4.2 `addBlock`: register one more block using this descriptor
(a JS `Set`, hence `setAdd`). -/
def Runtime.addBlock (r : Runtime) (hash : String) : Runtime :=
  ⟨setAdd r.usages hash⟩

/-- Spec §4.2 `deleteBlocks`: drop the given blocks from the usage set. -/
def Runtime.deleteBlocks (r : Runtime) (hashes : List String) : Runtime :=
  ⟨r.usages.filter (fun u => decide (u ∉ hashes))⟩

/-- `PinnedBlock` (source lines 21-28), field for field.  `children` is a
JS `Set<string>` modelled as an insertion-ordered list; `refCount` is a JS
number that the source only ever offsets by `±1`, modelled as `Int` (the
source has no lower guard, so it can go negative). -/
structure PinnedBlock where
  hash : String
  number : Nat
  parent : String
  children : List String
  runtime : String
  refCount : Int
deriving Repr, DecidableEq

/-- `PinnedBlocks` (source lines 35-41).  `blocks` is a JS `Map`,
`runtimes` a plain record; `finalizedRuntime` is `Option` because the
scan seed (line 204) fills it with a placeholder empty object cast to
`Runtime`, and the `finalized` case can store an absent lookup. -/
structure PinnedBlocks where
  best : String
  finalized : String
  runtimes : List (String × Runtime)
  blocks : List (String × PinnedBlock)
  finalizedRuntime : Option Runtime
deriving Repr, DecidableEq

/-- `hold` / `release` tags of a `BlockUsageEvent` (source lines 30-33). -/
inductive UsageKind where
  | hold
  | release
deriving Repr, DecidableEq

/-- The events consumed by the `scan` reducer (source lines 118-197):
the follow events (after the `initialized` event is enriched with
`number` and `parentHash` by `getHeader`), the external block-usage
events, and the fed-back `unpin` events.  The constructor for the
`"initialized"` case is named `initEv`. -/
inductive Event where
  | initEv (finalizedBlockHash parentHash : String) (number : Nat)
  | newBlock (parentBlockHash blockHash : String) (newRuntime : Bool)
  | bestBlockChanged (bestBlockHash : String)
  | finalizedEv (finalizedBlockHashes : List String)
  | blockUsage (kind : UsageKind) (hash : String)
  | unpin (hashes : List String)
deriving Repr, DecidableEq

/-- The `forEach` body of the `unpin` case (source lines 177-182) for a
single hash: if the hash is still pinned, detach it from its parent's
`children` set (optional chaining: skipped when the parent is not
tracked) and delete it from the map; otherwise a no-op. -/
def unpinOne (m : List (String × PinnedBlock)) (h : String) :
    List (String × PinnedBlock) :=
  match mget m h with
  | none => m
  | some node =>
    mdelete
      (match mget m node.parent with
        | none => m
        | some pnode =>
          mset m node.parent
            { pnode with children := pnode.children.filter (fun c => decide (c ≠ h)) })
      h

/-- `event.hashes.forEach(...)` of the `unpin` case (source lines
177-182). -/
def unpinBlocks (m : List (String × PinnedBlock)) (hashes : List String) :
    List (String × PinnedBlock) :=
  hashes.foldl unpinOne m

/-- The runtimes half of the `unpin` case (source lines 184-193): every
descriptor drops the unpinned blocks from its usage set
(`deleteBlocks`), and descriptors whose usage count reaches zero are
deleted from the record. -/
def unpinRuntimes (rs : List (String × Runtime)) (hashes : List String) :
    List (String × Runtime) :=
  (rs.map (fun kv => (kv.1, kv.2.deleteBlocks hashes))).filter
    (fun kv => decide (kv.2.usages.length ≠ 0))

/-- The `scan` reducer (source lines 118-198), one event at a time.
Each `!` non-null assertion of the source that can dereference
`undefined` at runtime becomes an `Except.error` (the thrown `TypeError`
terminates the RxJS pipeline exactly like a fatal error).

* `initEv` (lines 121-135): unconditionally points `finalized` and
  `best` at the new hash, stores the root node, and creates its runtime
  descriptor.  There is no already-initialized check in the source.
* `newBlock` (lines 137-156): `acc.blocks.get(parent)!` throws when the
  parent is untracked; `acc.runtimes[block.runtime].addBlock(hash)`
  throws when that runtime key is absent.
* `bestBlockChanged` (lines 158-161): unconditional pointer move.
* `finalizedEv` (lines 163-168): `slice(-1)[0]` of an empty list is
  `undefined` and the subsequent `.runtime` access throws, as does
  `acc.blocks.get(acc.finalized)!` for an untracked hash; the
  `acc.runtimes[...]` read is assigned without dereferencing, so an
  absent runtime is stored as `none` without error.
* `blockUsage` (lines 170-174): `acc.blocks.get(hash)!.refCount += ±1`;
  throws for an untracked hash, and applies the delta unconditionally
  (no zero check on release).
* `unpin` (lines 176-196): see `unpinBlocks` and `unpinRuntimes`. -/
def applyEvent (acc : PinnedBlocks) (ev : Event) : Except String PinnedBlocks :=
  match ev with
  | .initEv hash parentHash number =>
    let rt := getRuntime hash
    .ok { acc with
      finalized := hash
      best := hash
      blocks := mset acc.blocks hash
        { hash := hash, number := number, parent := parentHash
          children := [], runtime := hash, refCount := 0 }
      runtimes := mset acc.runtimes hash rt
      finalizedRuntime := some rt }
  | .newBlock parent hash newRuntime =>
    match mget acc.blocks parent with
    | none => .error "newBlock: parent not pinned"
    | some parentNode =>
      let blocks1 := mset acc.blocks parent
        { parentNode with children := setAdd parentNode.children hash }
      let runtimes1 :=
        if newRuntime then mset acc.runtimes hash (getRuntime hash) else acc.runtimes
      let block : PinnedBlock :=
        { hash := hash, number := parentNode.number + 1, parent := parent
          children := [], runtime := if newRuntime then hash else parentNode.runtime
          refCount := 0 }
      let blocks2 := mset blocks1 hash block
      match mget runtimes1 block.runtime with
      | none => .error "newBlock: missing runtime"
      | some rt =>
        .ok { acc with
          blocks := blocks2
          runtimes := mset runtimes1 block.runtime (rt.addBlock hash) }
  | .bestBlockChanged hash => .ok { acc with best := hash }
  | .finalizedEv hashes =>
    match hashes.getLast? with
    | none => .error "finalized: empty hash list"
    | some h =>
      match mget acc.blocks h with
      | none => .error "finalized: block not pinned"
      | some fb =>
        .ok { acc with
          finalized := h
          finalizedRuntime := mget acc.runtimes fb.runtime }
  | .blockUsage kind hash =>
    match mget acc.blocks hash with
    | none => .error "blockUsage: block not pinned"
    | some b =>
      let delta : Int := match kind with | .hold => 1 | .release => -1
      .ok { acc with
        blocks := mset acc.blocks hash { b with refCount := b.refCount + delta } }
  | .unpin hashes =>
    .ok { acc with
      blocks := unpinBlocks acc.blocks hashes
      runtimes := unpinRuntimes acc.runtimes hashes }

/-- The seed of the `scan` (source lines 199-205).  The placeholder
`finalizedRuntime: {}` (an empty object cast to `Runtime`) is modelled
as `none`. -/
def seedState : PinnedBlocks :=
  { best := "", finalized := "", runtimes := [], blocks := [], finalizedRuntime := none }

/-- Folding a list of events through the reducer; the first error
terminates the fold (the `scan` pipeline dies on a thrown exception). -/
def foldEvents (s : PinnedBlocks) : List Event → Except String PinnedBlocks
  | [] => .ok s
  | e :: rest =>
    match applyEvent s e with
    | .error msg => .error msg
    | .ok s' => foldEvents s' rest

/-! ## The cleanup scheduler (`cleaner$`, source lines 65-108)

On each interval tick the scheduler reads the latest snapshot, walks the
finalized ancestry collecting zero-refcount blocks, pairs consecutive
tick results (`pairwise`), keeps the hashes present in both, and feeds a
non-empty confirmed set back into the reducer as an `unpin` event (the
`selfDependent` subject delivers it synchronously, before any other
merged event can interleave). -/

/-- The `while` loop of the tick body (source lines 70-74), walking from
`current` up the `parent` links while the parent is tracked and
collecting (`Set.add`, hence `setAdd`) every visited ancestor with
`refCount == 0` (`!current.refCount`).  The loop is translated with
fuel: a terminating run of the source loop never revisits a block (a
revisit would repeat deterministically, forever), so it makes at most
`m.length` iterations and the fuel `m.length` used by `cleanerCollect`
reproduces it exactly. -/
def collectAux (m : List (String × PinnedBlock)) :
    PinnedBlock → List String → Nat → List String
  | _, acc, 0 => acc
  | current, acc, fuel + 1 =>
    match mget m current.parent with
    | none => acc
    | some p =>
      collectAux m p (if p.refCount = 0 then setAdd acc p.hash else acc) fuel

/-- One tick's collection (source lines 67-77).  The source starts with
`pinned.blocks.get(pinned.finalized)!`; when `finalized` is not in the
map this dereferences `undefined` in the loop condition and throws a
`TypeError`, modelled as `none`. -/
def cleanerCollect (s : PinnedBlocks) : Option (List String) :=
  match mget s.blocks s.finalized with
  | none => none
  | some root => some (collectAux s.blocks root [] s.blocks.length)

/-- The debounce (source line 79): of the current tick's collected set,
keep the hashes already collected on the previous tick. -/
def confirmedSet (prev cur : List String) : List String :=
  cur.filter (fun x => decide (x ∈ prev))

/-- The state of the closed-loop system: the latest published snapshot
and the previous tick's collected set (the left component `pairwise`
will pair with the next tick; the seed `[]` models the fact that
`pairwise` emits nothing on the very first tick). -/
structure SysState where
  snap : PinnedBlocks
  prevTick : List String
deriving Repr, DecidableEq

/-- One scheduler tick of the closed-loop system (source lines 65-81 plus
the feedback wiring of lines 63 and 110-116).  The collected set is
computed from the latest snapshot; a non-empty confirmed set is folded
back into the reducer as an `unpin` event synchronously, before any
other event can interleave (RxJS delivers the subject's value through
`merge` and `scan` within the same tick callback). -/
def tickStep (st : SysState) : Except String SysState :=
  match cleanerCollect st.snap with
  | none => .error "cleaner: finalized not pinned"
  | some c =>
    if (confirmedSet st.prevTick c).isEmpty then .ok ⟨st.snap, c⟩
    else
      match applyEvent st.snap (.unpin (confirmedSet st.prevTick c)) with
      | .error msg => .error msg
      | .ok s' => .ok ⟨s', c⟩

/-- Validity assumptions on the externally produced events, from the
spec: §4.1 "callers must guarantee at most one `initialized` per
subscription lifetime"; §5 "`newBlock` for a given hash is only
processed after its parent's `newBlock`/`initialized` has been folded"
(so a newly announced hash is fresh: it cannot already be tracked, nor
be the parent of an already-tracked block, and no block is its own
parent).  `unpin` events reach the reducer only through the cleaner
feedback (source line 63: `unpinnedBlocks$` is wired to `cleaner$` and
nothing else), so they are never external; the feedback is modelled by
`tickStep`. -/
def ValidEvent (s : PinnedBlocks) : Event → Prop
  | .initEv h p _ => s.blocks = [] ∧ h ≠ p
  | .newBlock _ h _ =>
      mhas s.blocks h = false ∧ ∀ kv ∈ s.blocks, kv.2.parent ≠ h
  | .unpin _ => False
  | _ => True

instance (s : PinnedBlocks) (e : Event) : Decidable (ValidEvent s e) := by
  unfold ValidEvent
  split <;> infer_instance

/-- The reachable states of the closed-loop system: starting from the
scan seed (with no previous tick), external valid events and scheduler
ticks are folded one at a time. -/
inductive Reach : SysState → Prop where
  | init : Reach ⟨seedState, []⟩
  | ext {st : SysState} (e : Event) {s' : PinnedBlocks} :
      Reach st → ValidEvent st.snap e → applyEvent st.snap e = .ok s' →
      Reach ⟨s', st.prevTick⟩
  | tick {st st' : SysState} :
      Reach st → tickStep st = .ok st' → Reach st'

/-! ## Structural predicates used by the claims -/

/-- Iterating the `parent` links from a block, staying inside the map. -/
def parentIter (m : List (String × PinnedBlock)) :
    PinnedBlock → Nat → Option PinnedBlock
  | b, 0 => some b
  | b, j + 1 =>
    match mget m b.parent with
    | none => none
    | some p => parentIter m p j

/-- `h` is reached from `b` by at least one `parent` step, all inside the
map: a strict ancestor of `b`. -/
def StrictAncestor (m : List (String × PinnedBlock)) (b : PinnedBlock)
    (h : String) : Prop :=
  ∃ j p, parentIter m b (j + 1) = some p ∧ p.hash = h

/-- `h` lies strictly between `finalized` and `best`: it is a strict
ancestor of the best block and the finalized block is a strict ancestor
of it. -/
def BetweenFinBest (s : PinnedBlocks) (h : String) : Prop :=
  ∃ bb hb, mget s.blocks s.best = some bb ∧ StrictAncestor s.blocks bb h ∧
    mget s.blocks h = some hb ∧ StrictAncestor s.blocks hb s.finalized

/-- The parent-number side condition of well-formedness, phrased by
matching on the lookup so that it is decidable. -/
def parentNumberOk (m : List (String × PinnedBlock)) (b : PinnedBlock) : Prop :=
  match mget m b.parent with
  | none => True
  | some p => b.number = p.number + 1

instance (m : List (String × PinnedBlock)) (b : PinnedBlock) :
    Decidable (parentNumberOk m b) := by
  unfold parentNumberOk
  split <;> infer_instance

/-- Well-formedness of the block map, established for every reachable
snapshot: keys are unique, each node's `hash` field equals its key, and
each node tracked together with its parent sits one level above it
(spec §3: "`number`: integer height; always `parent.number + 1`"). -/
def WFb (m : List (String × PinnedBlock)) : Prop :=
  (keysOf m).Nodup ∧ ∀ kv ∈ m, kv.2.hash = kv.1 ∧ parentNumberOk m kv.2

instance (m : List (String × PinnedBlock)) : Decidable (WFb m) := by
  unfold WFb
  infer_instance

/-- All tracked refcounts are non-negative. -/
def NonNeg (s : PinnedBlocks) : Prop :=
  ∀ kv ∈ s.blocks, 0 ≤ kv.2.refCount

instance (s : PinnedBlocks) : Decidable (NonNeg s) := by
  unfold NonNeg
  infer_instance

/-- A release event is backed by an outstanding hold: the targeted
block's refcount is at least one (spec §7: "a `release` without a
matching outstanding `hold`" is a caller bug). -/
def releaseOk (s : PinnedBlocks) : Event → Prop
  | .blockUsage .release h =>
    match mget s.blocks h with
    | none => True
    | some b => 1 ≤ b.refCount
  | _ => True

instance (s : PinnedBlocks) (e : Event) : Decidable (releaseOk s e) := by
  unfold releaseOk
  split
  case _ => split <;> infer_instance
  case _ => infer_instance

/-- A run of the reducer in which every release is backed by an
outstanding hold (the spec's "sequences of valid events" for the
refcount property, §8). -/
inductive GuardedRun : PinnedBlocks → List Event → PinnedBlocks → Prop where
  | nil {s : PinnedBlocks} : GuardedRun s [] s
  | cons {s s1 s2 : PinnedBlocks} {e : Event} {evs : List Event} :
      releaseOk s e → applyEvent s e = .ok s1 → GuardedRun s1 evs s2 →
      GuardedRun s (e :: evs) s2

/-- The well-formedness-relevant projection of a block node: its hash,
height, and parent link. -/
def skel (b : PinnedBlock) : String × Nat × String :=
  (b.hash, b.number, b.parent)

instance {ε α : Type} [DecidableEq ε] [DecidableEq α] : DecidableEq (Except ε α) :=
  fun a b =>
  match a, b with
  | .ok x, .ok y =>
    if h : x = y then .isTrue (by rw [h]) else .isFalse (fun hh => h (Except.ok.inj hh))
  | .error x, .error y =>
    if h : x = y then .isTrue (by rw [h]) else .isFalse (fun hh => h (Except.error.inj hh))
  | .ok _, .error _ => .isFalse (fun hh => Except.noConfusion hh)
  | .error _, .ok _ => .isFalse (fun hh => Except.noConfusion hh)

/-! ## The published-snapshot aliasing model

After each fold step the pipeline publishes `map((x) => ({ ...x }))`
(source line 207): a fresh top-level object whose fields are copied by
value — so `best` and `finalized` are captured — but whose `blocks`
field is a *reference* to the one JS `Map` object allocated by the scan
seed (source line 203).  The reducer only ever calls `.set`/`.delete`
on that map and never replaces it, so every published copy aliases the
same heap cell, numbered 0 here.  The cell's content after folding a
prefix of events is the current accumulator's `blocks`. -/

/-- A published shallow copy: top-level fields by value, the blocks map
by reference (always cell 0, see above). -/
structure SnapshotView where
  best : String
  finalized : String
  blocksRef : Nat
deriving Repr, DecidableEq

/-- The shallow copy `({ ...x })` of the accumulator published after a
fold step. -/
def publishView (s : PinnedBlocks) : SnapshotView :=
  ⟨s.best, s.finalized, 0⟩

/-- The content of heap cell 0 — the single `Map` object held in
`acc.blocks` — after folding `evs` from the seed (`none` when the fold
died on an error). -/
def blocksCellAfter (evs : List Event) : Option (List (String × PinnedBlock)) :=
  (foldEvents seedState evs).toOption.map (·.blocks)

/-! ## Concrete states used by counterexamples and witnesses -/

/-- The event sequence of the end-to-end scenario (spec §8). -/
def c9events : List Event :=
  [.initEv "A" "P" 0, .newBlock "A" "B" false,
   .bestBlockChanged "B", .finalizedEv ["B"]]

/-- The snapshot reached by folding `c9events` from the seed: root `A`
(child of the untracked `P`), child `B`, both on runtime `"A"`, with
`B` best and finalized. -/
def exS4 : PinnedBlocks :=
  { best := "B", finalized := "B",
    runtimes := [("A", ⟨["A", "B"]⟩)],
    blocks := [("A", ⟨"A", 0, "P", ["B"], "A", 0⟩), ("B", ⟨"B", 1, "A", [], "A", 0⟩)],
    finalizedRuntime := some ⟨["A", "B"]⟩ }

/-- `exS4` after an external `hold` on `B`. -/
def exS4h : PinnedBlocks :=
  { best := "B", finalized := "B",
    runtimes := [("A", ⟨["A", "B"]⟩)],
    blocks := [("A", ⟨"A", 0, "P", ["B"], "A", 0⟩), ("B", ⟨"B", 1, "A", [], "A", 1⟩)],
    finalizedRuntime := some ⟨["A", "B"]⟩ }

/-- `exS4` after a confirming tick unpins `A`. -/
def exS6 : PinnedBlocks :=
  { best := "B", finalized := "B",
    runtimes := [("A", ⟨["B"]⟩)],
    blocks := [("B", ⟨"B", 1, "A", [], "A", 0⟩)],
    finalizedRuntime := some ⟨["A", "B"]⟩ }

/-- `exS4h` after a confirming tick unpins `A` (the held `B` stays). -/
def exS6h : PinnedBlocks :=
  { best := "B", finalized := "B",
    runtimes := [("A", ⟨["B"]⟩)],
    blocks := [("B", ⟨"B", 1, "A", [], "A", 1⟩)],
    finalizedRuntime := some ⟨["A", "B"]⟩ }

/-- The snapshot after `initEv A`, a `hold A` and a matching
`release A`: the refcount is back to zero, not negative. -/
def exC1Final : PinnedBlocks :=
  { best := "A", finalized := "A",
    runtimes := [("A", ⟨["A"]⟩)],
    blocks := [("A", ⟨"A", 0, "P", [], "A", 0⟩)],
    finalizedRuntime := some ⟨["A"]⟩ }

/-! ## Lemmas about the association-map operations -/

/-! ## Lemmas about the association-map operations -/

section AssocMapLemmas

variable {α : Type} {m : List (String × α)} {k k₂ : String} {v : α}
variable {kv : String × α}

@[simp] theorem keysOf_nil : keysOf ([] : List (String × α)) = [] := rfl

@[simp] theorem keysOf_cons {k : String} {v : α} {rest : List (String × α)} :
    keysOf ((k, v) :: rest) = k :: keysOf rest := rfl

theorem mget_mem (h : mget m k = some v) : (k, v) ∈ m := by
  induction m with
  | nil => simp [mget] at h
  | cons hd rest ih =>
    obtain ⟨k', v'⟩ := hd
    simp only [mget] at h
    split at h
    · next heq =>
      cases h
      cases heq
      exact List.mem_cons_self _ _
    · exact List.mem_cons_of_mem _ (ih h)

theorem mem_keysOf_of_mget (h : mget m k = some v) : k ∈ keysOf m := by
  unfold keysOf
  exact List.mem_map_of_mem Prod.fst (mget_mem h)

theorem mget_eq_none_of_not_mem (h : k ∉ keysOf m) : mget m k = none := by
  induction m with
  | nil => rfl
  | cons hd rest ih =>
    obtain ⟨k', v'⟩ := hd
    rw [keysOf_cons, List.mem_cons] at h
    push_neg at h
    simp only [mget, if_neg (fun hh : k' = k => h.1 hh.symm)]
    exact ih h.2

theorem mget_isSome_of_mem_keysOf (h : k ∈ keysOf m) : (mget m k).isSome = true := by
  induction m with
  | nil => simp at h
  | cons hd rest ih =>
    obtain ⟨k', v'⟩ := hd
    simp only [mget]
    split
    · rfl
    · next hne =>
      rw [keysOf_cons, List.mem_cons] at h
      rcases h with rfl | h
      · exact absurd rfl hne
      · exact ih h

theorem not_mem_keysOf_of_mget_none (h : mget m k = none) : k ∉ keysOf m := by
  intro hk
  have := mget_isSome_of_mem_keysOf hk
  rw [h] at this
  cases this

theorem mhas_eq_false_iff : mhas m k = false ↔ k ∉ keysOf m := by
  unfold mhas
  constructor
  · intro h
    cases hg : mget m k with
    | none => exact not_mem_keysOf_of_mget_none hg
    | some v => rw [hg] at h; cases h
  · intro h
    rw [mget_eq_none_of_not_mem h]
    rfl

theorem mhas_eq_true_iff : mhas m k = true ↔ k ∈ keysOf m := by
  constructor
  · intro h
    by_contra hk
    rw [mhas_eq_false_iff.mpr hk] at h
    cases h
  · intro h
    unfold mhas
    rw [mget_isSome_of_mem_keysOf h]

theorem mget_mset_self : mget (mset m k v) k = some v := by
  induction m with
  | nil => simp [mset, mget]
  | cons hd rest ih =>
    obtain ⟨k', v'⟩ := hd
    simp only [mset]
    split
    · simp [mget]
    · next hne => simp only [mget, if_neg hne, ih]

theorem mget_mset_ne (hne : k₂ ≠ k) : mget (mset m k v) k₂ = mget m k₂ := by
  induction m with
  | nil =>
    simp only [mset, mget]
    rw [if_neg hne.symm]
  | cons hd rest ih =>
    obtain ⟨k', v'⟩ := hd
    simp only [mset]
    split
    · next heq =>
      cases heq
      simp only [mget, if_neg hne.symm]
    · simp only [mget, ih]

theorem mem_mset (h : kv ∈ mset m k v) : kv = (k, v) ∨ kv ∈ m := by
  induction m with
  | nil => simpa [mset] using h
  | cons hd rest ih =>
    obtain ⟨k', v'⟩ := hd
    simp only [mset] at h
    split at h
    · next heq =>
      cases heq
      rcases List.mem_cons.mp h with rfl | h
      · exact Or.inl rfl
      · exact Or.inr (List.mem_cons_of_mem _ h)
    · rcases List.mem_cons.mp h with rfl | h
      · exact Or.inr (List.mem_cons_self _ _)
      · rcases ih h with h | h
        · exact Or.inl h
        · exact Or.inr (List.mem_cons_of_mem _ h)

theorem keysOf_mset_of_mhas (h : mhas m k = true) :
    keysOf (mset m k v) = keysOf m := by
  induction m with
  | nil => rw [mhas_eq_true_iff] at h; simp at h
  | cons hd rest ih =>
    obtain ⟨k', v'⟩ := hd
    simp only [mset]
    split
    · next heq => cases heq; rfl
    · next hne =>
      have h' : mhas rest k = true := by
        rw [mhas_eq_true_iff] at h ⊢
        rw [keysOf_cons, List.mem_cons] at h
        rcases h with h | h
        · exact absurd h.symm hne
        · exact h
      rw [keysOf_cons, keysOf_cons, ih h']

theorem keysOf_mset_of_not_mhas (h : mhas m k = false) :
    keysOf (mset m k v) = keysOf m ++ [k] := by
  induction m with
  | nil => simp [mset]
  | cons hd rest ih =>
    obtain ⟨k', v'⟩ := hd
    rw [mhas_eq_false_iff, keysOf_cons, List.mem_cons] at h
    push_neg at h
    simp only [mset, if_neg (fun hh : k' = k => h.1 hh.symm)]
    have h' : mhas rest k = false := mhas_eq_false_iff.mpr h.2
    rw [keysOf_cons, keysOf_cons, ih h']
    rfl

theorem mem_mdelete (h : kv ∈ mdelete m k) : kv ∈ m := by
  induction m with
  | nil => simp [mdelete] at h
  | cons hd rest ih =>
    obtain ⟨k', v'⟩ := hd
    simp only [mdelete] at h
    split at h
    · exact List.mem_cons_of_mem _ (ih h)
    · rcases List.mem_cons.mp h with rfl | h
      · exact List.mem_cons_self _ _
      · exact List.mem_cons_of_mem _ (ih h)

theorem mget_mdelete_self : mget (mdelete m k) k = none := by
  induction m with
  | nil => rfl
  | cons hd rest ih =>
    obtain ⟨k', v'⟩ := hd
    simp only [mdelete]
    split
    · exact ih
    · next hne => simp only [mget, if_neg hne, ih]

theorem mget_mdelete_ne (hne : k₂ ≠ k) : mget (mdelete m k) k₂ = mget m k₂ := by
  induction m with
  | nil => rfl
  | cons hd rest ih =>
    obtain ⟨k', v'⟩ := hd
    simp only [mdelete]
    split
    · next heq =>
      cases heq
      simp only [mget, if_neg hne.symm, ih]
    · simp only [mget, ih]

theorem keysOf_mdelete :
    keysOf (mdelete m k) = (keysOf m).filter (fun x => decide (x ≠ k)) := by
  induction m with
  | nil => rfl
  | cons hd rest ih =>
    obtain ⟨k', v'⟩ := hd
    simp only [mdelete]
    split
    · next heq =>
      cases heq
      rw [keysOf_cons, List.filter_cons]
      simp [ih]
    · next hne =>
      rw [keysOf_cons, keysOf_cons, List.filter_cons]
      simp [ih, hne]

theorem nodup_keysOf_mset (h : (keysOf m).Nodup) :
    (keysOf (mset m k v)).Nodup := by
  cases hh : mhas m k with
  | true => rw [keysOf_mset_of_mhas hh]; exact h
  | false =>
    rw [keysOf_mset_of_not_mhas hh]
    rw [mhas_eq_false_iff] at hh
    simpa [List.nodup_append] using ⟨h, hh⟩

theorem nodup_keysOf_mdelete (h : (keysOf m).Nodup) :
    (keysOf (mdelete m k)).Nodup := by
  rw [keysOf_mdelete]
  exact h.filter _

theorem mget_eq_of_mem (hnd : (keysOf m).Nodup) (h : (k, v) ∈ m) :
    mget m k = some v := by
  induction m with
  | nil => simp at h
  | cons hd rest ih =>
    obtain ⟨k', v'⟩ := hd
    rw [keysOf_cons, List.nodup_cons] at hnd
    rcases List.mem_cons.mp h with heq | h
    · cases heq
      simp [mget]
    · have hne : k' ≠ k := by
        rintro rfl
        exact hnd.1 (by simpa [keysOf] using List.mem_map_of_mem Prod.fst h)
      simp only [mget, if_neg hne]
      exact ih hnd.2 h

end AssocMapLemmas

theorem mem_setAdd {l : List String} {x y : String} :
    x ∈ setAdd l y ↔ x ∈ l ∨ x = y := by
  unfold setAdd
  split
  · next hy =>
    constructor
    · exact Or.inl
    · rintro (h | rfl)
      · exact h
      · exact hy
  · simp

theorem mhas_mset {α : Type} {m : List (String × α)} {k k₂ : String} {v : α} :
    mhas (mset m k v) k₂ = (mhas m k₂ || decide (k₂ = k)) := by
  by_cases h : k₂ = k
  · subst h
    unfold mhas
    rw [mget_mset_self]
    simp
  · unfold mhas
    rw [mget_mset_ne h]
    simp [h]

theorem mhas_eq_of_keysOf_eq {α : Type} {m m₂ : List (String × α)} {k : String}
    (h : keysOf m = keysOf m₂) : mhas m k = mhas m₂ k := by
  cases hh : mhas m₂ k with
  | true => exact mhas_eq_true_iff.mpr (h ▸ mhas_eq_true_iff.mp hh)
  | false => exact mhas_eq_false_iff.mpr (h ▸ mhas_eq_false_iff.mp hh)

theorem parentNumberOk_iff {m : List (String × PinnedBlock)} {b : PinnedBlock} :
    parentNumberOk m b ↔ ∀ p, mget m b.parent = some p → b.number = p.number + 1 := by
  unfold parentNumberOk
  cases hg : mget m b.parent with
  | none => simp
  | some p =>
    constructor
    · intro h q hq
      cases hq
      exact h
    · intro h
      exact h p rfl

/-- Well-formedness only depends on the key sequence and the skeleton of
each node; updates that keep both (refcount bumps, children edits)
preserve it. -/
theorem WFb_of_skel_eq {m m₂ : List (String × PinnedBlock)}
    (hk : keysOf m = keysOf m₂)
    (hs : ∀ k, (mget m k).map skel = (mget m₂ k).map skel)
    (h : WFb m) : WFb m₂ := by
  obtain ⟨hnd, hmem⟩ := h
  have hnd₂ : (keysOf m₂).Nodup := hk ▸ hnd
  refine ⟨hnd₂, ?_⟩
  rintro ⟨k, b⟩ hb
  have hg₂ : mget m₂ k = some b := mget_eq_of_mem hnd₂ hb
  have hsk := hs k
  rw [hg₂] at hsk
  cases hg : mget m k with
  | none => rw [hg] at hsk; cases hsk
  | some v0 =>
    rw [hg] at hsk
    have hskel : skel v0 = skel b := by
      simpa using hsk
    obtain ⟨hh0, hn0, hp0⟩ : v0.hash = b.hash ∧ v0.number = b.number ∧
        v0.parent = b.parent := by
      unfold skel at hskel
      exact ⟨congrArg (·.1) hskel, congrArg (·.2.1) hskel, congrArg (·.2.2) hskel⟩
    obtain ⟨hhash, hpn⟩ := hmem (k, v0) (mget_mem hg)
    constructor
    · exact hh0 ▸ hhash
    · rw [parentNumberOk_iff]
      intro p hp
      have hsp := hs b.parent
      rw [hp] at hsp
      cases hgp : mget m b.parent with
      | none => rw [hgp] at hsp; cases hsp
      | some q =>
        rw [hgp] at hsp
        have hq : skel q = skel p := by simpa using hsp
        have hqn : q.number = p.number := congrArg (·.2.1) hq
        have := (parentNumberOk_iff.mp hpn) q (hp0 ▸ hgp)
        simp only []
        rw [← hn0, ← hqn]
        exact this

theorem WFb_mset_skel {m : List (String × PinnedBlock)} {k : String}
    {v v0 : PinnedBlock} (h : WFb m) (hg : mget m k = some v0)
    (hsk : skel v = skel v0) : WFb (mset m k v) := by
  refine WFb_of_skel_eq ?_ ?_ h
  · exact (keysOf_mset_of_mhas (by unfold mhas; rw [hg]; rfl)).symm
  · intro k'
    by_cases hk' : k' = k
    · subst hk'
      rw [mget_mset_self, hg]
      simpa using hsk.symm
    · rw [mget_mset_ne hk']

theorem WFb_mdelete {m : List (String × PinnedBlock)} {k : String}
    (h : WFb m) : WFb (mdelete m k) := by
  obtain ⟨hnd, hmem⟩ := h
  refine ⟨nodup_keysOf_mdelete hnd, ?_⟩
  rintro ⟨k', b⟩ hb
  have hbm : (k', b) ∈ m := mem_mdelete hb
  obtain ⟨hhash, hpn⟩ := hmem (k', b) hbm
  refine ⟨hhash, ?_⟩
  rw [parentNumberOk_iff]
  intro p hp
  have hne : b.parent ≠ k := by
    rintro rfl
    rw [mget_mdelete_self] at hp
    cases hp
  rw [mget_mdelete_ne hne] at hp
  exact (parentNumberOk_iff.mp hpn) p hp

theorem WFb_unpinOne {m : List (String × PinnedBlock)} {h : String}
    (hw : WFb m) : WFb (unpinOne m h) := by
  unfold unpinOne
  split
  · exact hw
  · next node hnode =>
    refine WFb_mdelete ?_
    split
    · exact hw
    · next pnode hpnode =>
      exact WFb_mset_skel hw hpnode rfl

theorem WFb_unpinBlocks {m : List (String × PinnedBlock)} {hs : List String}
    (hw : WFb m) : WFb (unpinBlocks m hs) := by
  induction hs generalizing m with
  | nil => exact hw
  | cons a t ih => exact ih (WFb_unpinOne hw)

theorem WFb_mset_fresh {m : List (String × PinnedBlock)} {k : String}
    {v p0 : PinnedBlock} (h : WFb m) (hfresh : mhas m k = false)
    (hhash : v.hash = k) (hp : mget m v.parent = some p0)
    (hnum : v.number = p0.number + 1)
    (hnoref : ∀ kv ∈ m, kv.2.parent ≠ k) : WFb (mset m k v) := by
  obtain ⟨hnd, hmem⟩ := h
  have hkeys := keysOf_mset_of_not_mhas (v := v) hfresh
  have hknotin := mhas_eq_false_iff.mp hfresh
  constructor
  · rw [hkeys]
    simpa [List.nodup_append] using ⟨hnd, hknotin⟩
  · rintro ⟨k', b⟩ hb
    rcases mem_mset hb with heq | hbm
    · cases heq
      refine ⟨hhash, ?_⟩
      rw [parentNumberOk_iff]
      intro q hq
      have hvp : v.parent ≠ k := by
        rintro rfl
        exact hknotin (mem_keysOf_of_mget hp)
      rw [mget_mset_ne hvp, hp] at hq
      cases hq
      exact hnum
    · obtain ⟨hhash', hpn⟩ := hmem (k', b) hbm
      refine ⟨hhash', ?_⟩
      rw [parentNumberOk_iff]
      intro q hq
      have hbp : b.parent ≠ k := hnoref (k', b) hbm
      rw [mget_mset_ne hbp] at hq
      exact (parentNumberOk_iff.mp hpn) q hq

/-- Unpinning never touches a key outside the unpinned hash list. -/
theorem mhas_unpinOne_ne {m : List (String × PinnedBlock)} {k h : String}
    (hne : k ≠ h) : mhas (unpinOne m h) k = mhas m k := by
  unfold unpinOne
  split
  · rfl
  · next node hnode =>
    unfold mhas
    rw [mget_mdelete_ne hne]
    split
    · rfl
    · next pnode hpnode =>
      by_cases hk : k = node.parent
      · subst hk
        rw [mget_mset_self, hpnode]
        rfl
      · rw [mget_mset_ne hk]

theorem mhas_unpinBlocks_not_mem {m : List (String × PinnedBlock)}
    {hs : List String} {k : String} (hk : k ∉ hs) :
    mhas (unpinBlocks m hs) k = mhas m k := by
  induction hs generalizing m with
  | nil => rfl
  | cons a t ih =>
    rw [List.mem_cons] at hk
    push_neg at hk
    show mhas (unpinBlocks (unpinOne m a) t) k = mhas m k
    rw [ih hk.2, mhas_unpinOne_ne hk.1]

/-- Every node surviving an unpin pass keeps the refcount it had (only
`children` sets are edited and entries deleted). -/
theorem refCount_unpinOne {m : List (String × PinnedBlock)} {h : String}
    {kv : String × PinnedBlock} (hkv : kv ∈ unpinOne m h) :
    ∃ kv0 ∈ m, kv.2.refCount = kv0.2.refCount := by
  unfold unpinOne at hkv
  split at hkv
  · exact ⟨kv, hkv, rfl⟩
  · next node hnode =>
    have hm1 := mem_mdelete hkv
    split at hm1
    · exact ⟨kv, hm1, rfl⟩
    · next pnode hpnode =>
      rcases mem_mset hm1 with heq | hm
      · subst heq
        exact ⟨(node.parent, pnode), mget_mem hpnode, rfl⟩
      · exact ⟨kv, hm, rfl⟩

theorem refCount_unpinBlocks {m : List (String × PinnedBlock)}
    {hs : List String} {kv : String × PinnedBlock}
    (hkv : kv ∈ unpinBlocks m hs) :
    ∃ kv0 ∈ m, kv.2.refCount = kv0.2.refCount := by
  induction hs generalizing m with
  | nil => exact ⟨kv, hkv, rfl⟩
  | cons a t ih =>
    obtain ⟨kv1, hkv1, he1⟩ := ih hkv
    obtain ⟨kv0, hkv0, he0⟩ := refCount_unpinOne hkv1
    exact ⟨kv0, hkv0, he1.trans he0⟩

/-- Every fold step keeps all refcounts non-negative, provided a release
is backed by an outstanding hold. -/
theorem nonNeg_applyEvent {s s' : PinnedBlocks} {e : Event}
    (hn : NonNeg s) (hg : releaseOk s e) (ha : applyEvent s e = .ok s') :
    NonNeg s' := by
  cases e with
  | initEv h p n =>
    cases ha
    rintro kv hkv
    rcases mem_mset hkv with heq | hm
    · subst heq; norm_num
    · exact hn kv hm
  | newBlock parent h nr =>
    simp only [applyEvent] at ha
    split at ha
    · cases ha
    · next parentNode hparent =>
      split at ha
      · cases ha
      · next rt hrt =>
        cases ha
        rintro kv hkv
        rcases mem_mset hkv with heq | hm
        · subst heq; norm_num
        · rcases mem_mset hm with heq | hm'
          · subst heq
            exact hn (parent, parentNode) (mget_mem hparent)
          · exact hn kv hm'
  | bestBlockChanged h =>
    cases ha
    exact hn
  | finalizedEv hs =>
    simp only [applyEvent] at ha
    split at ha
    · cases ha
    · split at ha
      · cases ha
      · cases ha
        exact hn
  | blockUsage kind h =>
    simp only [applyEvent] at ha
    split at ha
    · cases ha
    · next b hb =>
      cases ha
      rintro kv hkv
      rcases mem_mset hkv with heq | hm
      · subst heq
        have hb0 : 0 ≤ b.refCount := hn (h, b) (mget_mem hb)
        cases kind with
        | hold => simp only []; omega
        | release =>
          simp only [releaseOk] at hg
          rw [hb] at hg
          simp only []
          omega
      · exact hn kv hm
  | unpin hs =>
    cases ha
    rintro kv hkv
    obtain ⟨kv0, hkv0, he⟩ := refCount_unpinBlocks hkv
    rw [he]
    exact hn kv0 hkv0

/-- For all sequences of valid events, no refcount ever goes negative. -/
theorem nonNeg_guardedRun {s s' : PinnedBlocks} {evs : List Event}
    (hn : NonNeg s) (hr : GuardedRun s evs s') : NonNeg s' := by
  induction hr with
  | nil => exact hn
  | cons hg ha _ ih => exact ih (nonNeg_applyEvent hn hg ha)

/-- Every successful fold step from a well-formed snapshot under a valid
external event yields a well-formed snapshot. -/
theorem WFb_applyEvent {s s' : PinnedBlocks} {e : Event}
    (hw : WFb s.blocks) (hv : ValidEvent s e)
    (ha : applyEvent s e = .ok s') : WFb s'.blocks := by
  cases e with
  | initEv h p n =>
    obtain ⟨hempty, hne⟩ := hv
    cases ha
    show WFb (mset s.blocks h _)
    rw [hempty]
    refine ⟨by simp [mset], ?_⟩
    rintro ⟨k, b⟩ hb
    simp only [mset, List.mem_singleton] at hb
    cases hb
    refine ⟨rfl, ?_⟩
    rw [parentNumberOk_iff]
    intro q hq
    simp only [mget, if_neg hne] at hq
    exact Option.noConfusion hq
  | newBlock parent h nr =>
    obtain ⟨hfresh, hnoref⟩ := hv
    simp only [applyEvent] at ha
    split at ha
    · cases ha
    · next parentNode hparent =>
      split at ha
      · cases ha
      · next rt hrt =>
        cases ha
        have hw1 : WFb (mset s.blocks parent
            { parentNode with children := setAdd parentNode.children h }) :=
          WFb_mset_skel hw hparent rfl
        have hkeys1 : keysOf (mset s.blocks parent
            { parentNode with children := setAdd parentNode.children h }) =
            keysOf s.blocks :=
          keysOf_mset_of_mhas (by unfold mhas; rw [hparent]; rfl)
        have hp1 : mget (mset s.blocks parent
            { parentNode with children := setAdd parentNode.children h }) parent =
            some { parentNode with children := setAdd parentNode.children h } :=
          mget_mset_self
        refine WFb_mset_fresh hw1 ?_ rfl hp1 rfl ?_
        · rw [mhas_eq_of_keysOf_eq hkeys1]
          exact hfresh
        · rintro ⟨k, b⟩ hb
          rcases mem_mset hb with heq | hm
          · cases heq
            exact hnoref (parent, parentNode) (mget_mem hparent)
          · exact hnoref (k, b) hm
  | bestBlockChanged h =>
    cases ha
    exact hw
  | finalizedEv hs =>
    simp only [applyEvent] at ha
    split at ha
    · cases ha
    · split at ha
      · cases ha
      · cases ha
        exact hw
  | blockUsage kind h =>
    simp only [applyEvent] at ha
    split at ha
    · cases ha
    · next b hb =>
      cases ha
      exact WFb_mset_skel hw hb rfl
  | unpin hs =>
    cases hv

/-- Every reachable snapshot of the closed-loop system is well-formed. -/
theorem reach_WF {st : SysState} (h : Reach st) : WFb st.snap.blocks := by
  induction h with
  | init => exact ⟨List.nodup_nil, by rintro kv hkv; simp [seedState] at hkv⟩
  | ext _ _ hv ha ih => exact WFb_applyEvent ih hv ha
  | tick _ ht ih =>
    unfold tickStep at ht
    split at ht
    · cases ht
    · next c hc =>
      split at ht
      · cases ht
        exact ih
      · split at ht
        · cases ht
        · next s2 ha =>
          cases ha
          cases ht
          exact WFb_unpinBlocks ih

/-! ## The ancestry walk: characterization and number bounds -/

theorem mem_confirmedSet {prev cur : List String} {x : String} :
    x ∈ confirmedSet prev cur ↔ x ∈ cur ∧ x ∈ prev := by
  unfold confirmedSet
  simp [List.mem_filter]

/-- Every hash collected by the walk names a strict ancestor of the
starting block with refcount zero. -/
theorem mem_collectAux {m : List (String × PinnedBlock)} {cur : PinnedBlock}
    {acc : List String} {fuel : Nat} {x : String}
    (h : x ∈ collectAux m cur acc fuel) :
    x ∈ acc ∨ ∃ j p, parentIter m cur (j + 1) = some p ∧ p.hash = x ∧
      p.refCount = 0 := by
  induction fuel generalizing cur acc with
  | zero => exact Or.inl h
  | succ fuel ih =>
    unfold collectAux at h
    split at h
    · exact Or.inl h
    · next p hp =>
      rcases ih h with hacc | ⟨j, q, hq, hqh, hq0⟩
      · split at hacc
        · next hp0 =>
          rcases mem_setAdd.mp hacc with hacc | rfl
          · exact Or.inl hacc
          · refine Or.inr ⟨0, p, ?_, rfl, hp0⟩
            unfold parentIter
            rw [hp]
            rfl
        · exact Or.inl hacc
      · refine Or.inr ⟨j + 1, q, ?_, hqh, hq0⟩
        show parentIter m cur (j + 1 + 1) = some q
        unfold parentIter
        rw [hp]
        exact hq

theorem mem_cleanerCollect {s : PinnedBlocks} {c : List String} {x : String}
    (hc : cleanerCollect s = some c) (hx : x ∈ c) :
    ∃ root, mget s.blocks s.finalized = some root ∧
      ∃ j p, parentIter s.blocks root (j + 1) = some p ∧ p.hash = x ∧
        p.refCount = 0 := by
  unfold cleanerCollect at hc
  split at hc
  · cases hc
  · next root hroot =>
    cases hc
    rcases mem_collectAux hx with hacc | hanc
    · simp at hacc
    · exact ⟨root, hroot, hanc⟩

/-- In a well-formed map, iterating the parent links from a tracked node
stays in the map and descends in height by exactly the number of steps. -/
theorem parentIter_mem_number {m : List (String × PinnedBlock)}
    (hw : WFb m) :
    ∀ (j : Nat) (k0 : String) (b0 p : PinnedBlock), (k0, b0) ∈ m →
      parentIter m b0 j = some p → (p.hash, p) ∈ m ∧ p.number + j = b0.number := by
  intro j
  induction j with
  | zero =>
    intro k0 b0 p hb0 hp
    unfold parentIter at hp
    cases hp
    obtain ⟨hhash, _⟩ := hw.2 (k0, b0) hb0
    exact ⟨hhash ▸ hb0, rfl⟩
  | succ j ih =>
    intro k0 b0 p hb0 hp
    unfold parentIter at hp
    split at hp
    · cases hp
    · next q hq =>
      obtain ⟨hqmem, hqnum⟩ := ih b0.parent q p (mget_mem hq) hp
      obtain ⟨_, hpn⟩ := hw.2 (k0, b0) hb0
      have hstep : b0.number = q.number + 1 := (parentNumberOk_iff.mp hpn) q hq
      exact ⟨hqmem, by omega⟩

/-- Key consequence for the cleanup scheduler: every hash in a tick's
collected set, looked up in a well-formed map, is a tracked block with
refcount zero sitting strictly below the finalized block. -/
theorem collected_block {s : PinnedBlocks} {c : List String} {x : String}
    (hw : WFb s.blocks) (hc : cleanerCollect s = some c) (hx : x ∈ c) :
    ∃ root p, mget s.blocks s.finalized = some root ∧
      mget s.blocks x = some p ∧ p.refCount = 0 ∧ p.number < root.number := by
  obtain ⟨root, hroot, j, p, hpi, hph, hp0⟩ := mem_cleanerCollect hc hx
  obtain ⟨hpmem, hpnum⟩ :=
    parentIter_mem_number hw (j + 1) s.finalized root p (mget_mem hroot) hpi
  refine ⟨root, p, hroot, ?_, hp0, by omega⟩
  rw [← hph]
  exact mget_eq_of_mem hw.1 hpmem

/-! ## Idempotence of the unpin fold step -/

theorem mhas_unpinOne_self {m : List (String × PinnedBlock)} {h : String} :
    mhas (unpinOne m h) h = false := by
  unfold unpinOne
  split
  · next hnode =>
    unfold mhas
    rw [hnode]
    rfl
  · unfold mhas
    rw [mget_mdelete_self]
    rfl

theorem mhas_unpinBlocks_mem {m : List (String × PinnedBlock)}
    {hs : List String} {h : String} (hh : h ∈ hs) :
    mhas (unpinBlocks m hs) h = false := by
  induction hs generalizing m with
  | nil => simp at hh
  | cons a t ih =>
    show mhas (unpinBlocks (unpinOne m a) t) h = false
    rcases List.mem_cons.mp hh with rfl | hh
    · by_cases hmem : h ∈ t
      · exact ih hmem
      · rw [mhas_unpinBlocks_not_mem hmem]
        exact mhas_unpinOne_self
    · exact ih hh

theorem unpinOne_no_op {m : List (String × PinnedBlock)} {h : String}
    (hg : mget m h = none) : unpinOne m h = m := by
  unfold unpinOne
  rw [hg]

theorem unpinBlocks_no_op {m : List (String × PinnedBlock)} {hs : List String}
    (hg : ∀ h ∈ hs, mhas m h = false) : unpinBlocks m hs = m := by
  induction hs with
  | nil => rfl
  | cons a t ih =>
    show unpinBlocks (unpinOne m a) t = m
    have ha : mget m a = none := by
      have := hg a (List.mem_cons_self _ _)
      unfold mhas at this
      cases hma : mget m a with
      | none => rfl
      | some v => rw [hma] at this; cases this
    rw [unpinOne_no_op ha]
    exact ih (fun h hh => hg h (List.mem_cons_of_mem _ hh))

theorem unpinBlocks_idem {m : List (String × PinnedBlock)} {hs : List String} :
    unpinBlocks (unpinBlocks m hs) hs = unpinBlocks m hs :=
  unpinBlocks_no_op (fun _ hh => mhas_unpinBlocks_mem hh)

theorem filter_idem {β : Type} {p : β → Bool} {l : List β} :
    (l.filter p).filter p = l.filter p := by
  induction l with
  | nil => rfl
  | cons a t ih =>
    cases hp : p a with
    | true => simp [List.filter_cons, hp, ih]
    | false => simp [List.filter_cons, hp, ih]

theorem deleteBlocks_idem {r : Runtime} {hs : List String} :
    (r.deleteBlocks hs).deleteBlocks hs = r.deleteBlocks hs := by
  unfold Runtime.deleteBlocks
  rw [Runtime.mk.injEq]
  exact filter_idem

theorem unpinRuntimes_fixed {rs : List (String × Runtime)} {hs : List String}
    (hfix : ∀ kv ∈ rs, kv.2.deleteBlocks hs = kv.2 ∧
      decide (kv.2.usages.length ≠ 0) = true) :
    unpinRuntimes rs hs = rs := by
  induction rs with
  | nil => rfl
  | cons a t ih =>
    obtain ⟨hdel, hlen⟩ := hfix a (List.mem_cons_self _ _)
    unfold unpinRuntimes
    rw [List.map_cons, List.filter_cons]
    have ha : (a.1, a.2.deleteBlocks hs) = a := by
      rw [hdel]
    rw [ha, hlen]
    have ht := ih (fun kv hkv => hfix kv (List.mem_cons_of_mem _ hkv))
    unfold unpinRuntimes at ht
    rw [ht]
    simp

theorem unpinRuntimes_idem {rs : List (String × Runtime)} {hs : List String} :
    unpinRuntimes (unpinRuntimes rs hs) hs = unpinRuntimes rs hs := by
  refine unpinRuntimes_fixed ?_
  intro kv hkv
  unfold unpinRuntimes at hkv
  obtain ⟨hmap, hkeep⟩ := List.mem_filter.mp hkv
  obtain ⟨kv0, _, hkv0⟩ := List.mem_map.mp hmap
  constructor
  · rw [← hkv0]
    show ((kv0.1, kv0.2.deleteBlocks hs).2.deleteBlocks hs) = _
    exact deleteBlocks_idem
  · exact hkeep

/-- C3: unpin is idempotent.  Folding `unpin(hashes)` twice in a row from
any snapshot yields the same snapshot (same blocks map, children sets,
runtimes mapping and usage sets, pointers) as folding it once: the second
pass finds none of the hashes still pinned (no-op on the block map) and
finds every usage set already stripped of them (no-op on the runtimes). -/
theorem C3_unpin_idempotent (s : PinnedBlocks) (hashes : List String) :
    (applyEvent s (.unpin hashes)).bind (fun s1 => applyEvent s1 (.unpin hashes)) =
      applyEvent s (.unpin hashes) := by
  simp only [applyEvent, Except.bind]
  refine congrArg Except.ok ?_
  rw [PinnedBlocks.mk.injEq]
  exact ⟨rfl, rfl, unpinRuntimes_idem, unpinBlocks_idem, rfl⟩

/-! ## Concrete reachable states (shared by several witnesses) -/

theorem exReach4 : Reach ⟨exS4, []⟩ :=
  Reach.ext (.finalizedEv ["B"])
    (Reach.ext (.bestBlockChanged "B")
      (Reach.ext (.newBlock "A" "B" false)
        (Reach.ext (.initEv "A" "P" 0) Reach.init (by decide) rfl)
        (by decide) rfl)
      (by decide) rfl)
    (by decide) rfl

theorem exReach5 : Reach ⟨exS4, ["A"]⟩ :=
  Reach.tick exReach4 rfl

theorem exReach4h : Reach ⟨exS4h, []⟩ :=
  Reach.ext (.blockUsage .hold "B") exReach4 (by decide) rfl

theorem exReach5h : Reach ⟨exS4h, ["A"]⟩ :=
  Reach.tick exReach4h rfl

/-! ## The claims -/

/-- C1, counterexample: the spec claims a `release` that would take
`refCount` below zero is rejected and the snapshot left unchanged.  The
source (lines 170-174) applies the decrement unconditionally: a release
on block `A` with `refCount == 0` succeeds and stores `refCount == -1`
— the fold neither fails nor leaves the snapshot unchanged. -/
theorem C1_counterexample :
    (foldEvents seedState [.initEv "A" "P" 0, .blockUsage .release "A"]).toOption.map
      (fun s => (mget s.blocks "A").map (·.refCount)) = some (some (-1)) := by
  decide

/-- C1, amended: the fold applies a release unconditionally — on a block
with `refCount == 0` it stores `-1` and changes the snapshot (see the
counterexample) — but for every sequence of valid events, in which each
release targets a block with an outstanding hold (`refCount ≥ 1`),
starting from a snapshot with non-negative refcounts, every refcount
stays non-negative for every tracked block. -/
theorem C1_release_nonneg {s s' : PinnedBlocks} {evs : List Event}
    (hn : NonNeg s) (hr : GuardedRun s evs s') : NonNeg s' :=
  nonNeg_guardedRun hn hr

theorem C1_release_nonneg_witness : NonNeg exC1Final :=
  C1_release_nonneg (by decide)
    ((GuardedRun.cons (by decide) rfl
      (GuardedRun.cons (by decide) rfl
        (GuardedRun.cons (by decide) rfl GuardedRun.nil))) :
      GuardedRun seedState
        [.initEv "A" "P" 0, .blockUsage .hold "A", .blockUsage .release "A"]
        exC1Final)

/-- C2, counterexample: the spec claims no later fold step mutates a
previously published snapshot — "in particular its blocks map".  The
published copy (`map((x) => ({ ...x }))`, source line 207) is shallow:
every published view aliases the one `Map` allocated by the scan seed
(cell 0), and the cell's content after the later `newBlock` fold step
differs from its content when the first snapshot was published — the
first published snapshot's blocks map has been mutated by a later fold
step. -/
theorem C2_counterexample :
    ((foldEvents seedState [.initEv "A" "P" 0]).toOption.map
        (fun s => (publishView s).blocksRef)) = some 0 ∧
    ((foldEvents seedState [.initEv "A" "P" 0, .newBlock "A" "B" false]).toOption.map
        (fun s => (publishView s).blocksRef)) = some 0 ∧
    blocksCellAfter [.initEv "A" "P" 0] ≠
      blocksCellAfter [.initEv "A" "P" 0, .newBlock "A" "B" false] := by
  decide

/-- C2, amended: at the value level the fold is a pure function of the
current snapshot and one event — folding a concatenation is folding the
parts in sequence, so each step is determined by its predecessor state —
and the published top-level object's `best`/`finalized` fields are
captured by value; but the `blocks` map is shared by reference: every
published view carries the same cell 0, whose content later fold steps
mutate (see the counterexample). -/
theorem C2_value_purity :
    (∀ (s : PinnedBlocks) (xs ys : List Event),
      foldEvents s (xs ++ ys) = (foldEvents s xs).bind (fun m => foldEvents m ys)) ∧
    (∀ (evs : List Event) (s' : PinnedBlocks),
      foldEvents seedState evs = .ok s' → (publishView s').blocksRef = 0) := by
  constructor
  · intro s xs ys
    induction xs generalizing s with
    | nil => rfl
    | cons e t ih =>
      show foldEvents s (e :: (t ++ ys)) =
        (foldEvents s (e :: t)).bind fun m => foldEvents m ys
      cases happly : applyEvent s e with
      | error msg =>
        simp only [foldEvents, happly]
        rfl
      | ok s1 =>
        simp only [foldEvents, happly]
        exact ih s1
  · intro evs s' _
    rfl

theorem C2_value_purity_witness :
    foldEvents seedState ([.initEv "A" "P" 0] ++ [.newBlock "A" "B" false]) =
      (foldEvents seedState [.initEv "A" "P" 0]).bind
        (fun m => foldEvents m [.newBlock "A" "B" false]) ∧
    (publishView exS4).blocksRef = 0 :=
  ⟨C2_value_purity.1 seedState [.initEv "A" "P" 0] [.newBlock "A" "B" false],
   C2_value_purity.2 c9events exS4 (by decide)⟩

/-- C5, counterexample: the spec claims folding `initialized` into an
already-initialized store fails fatally.  The source (lines 121-135) has
no already-initialized check: folding a second `initialized` succeeds,
repoints `finalized`, and keeps the previously tracked block — the old
state is merged, not cleared, and no error is raised. -/
theorem C5_counterexample :
    ((foldEvents seedState [.initEv "A" "P" 0, .initEv "C" "Q" 5]).toOption.map
        (fun s => (mhas s.blocks "A", mhas s.blocks "C", s.finalized, s.best)))
      = some (true, true, "C", "C") := by
  decide

/-- C5, amended: folding an `initialized` event never fails, whatever
the current state: it repoints `best` and `finalized` at the new hash,
stores (or overwrites) that hash's root entry, and keeps every other
tracked block — a silent reinitialize-and-merge rather than a fatal
error. -/
theorem C5_second_init_merges (s : PinnedBlocks) (h p : String) (n : Nat) :
    ∃ s', applyEvent s (.initEv h p n) = Except.ok s' ∧ s'.finalized = h ∧
      s'.best = h ∧ ∀ k, mhas s'.blocks k = (mhas s.blocks k || decide (k = h)) := by
  refine ⟨_, rfl, rfl, rfl, ?_⟩
  intro k
  exact mhas_mset

/-- C8, counterexample: the spec claims the ancestry walk stops without
error even when `finalized` itself is absent from `blocks`.  The source
starts with `pinned.blocks.get(pinned.finalized)!` (line 70); when the
finalized hash is untracked this dereferences `undefined` in the loop
condition and throws (modelled as `none`): on the snapshot with
`finalized = "A"` and an empty block map, the walk errors instead of
stopping. -/
theorem C8_counterexample :
    cleanerCollect
      { best := "", finalized := "A", runtimes := [], blocks := [],
        finalizedRuntime := none } = none := by
  decide

/-- C8, amended: the walk stops without error at any *ancestor* absent
from `blocks` (the `while` guard checks `has(current.parent)` before
stepping), but it errors exactly when the finalized block itself is
absent: the walk succeeds on a snapshot if and only if `finalized` is
tracked. -/
theorem C8_walk_total_iff_finalized_present (s : PinnedBlocks) :
    (cleanerCollect s).isSome = (mget s.blocks s.finalized).isSome := by
  unfold cleanerCollect
  split
  · next hroot => rw [hroot]; rfl
  · next root hroot => rw [hroot]; rfl

/-- C9: the end-to-end scenario.  Folding `initialized(A, number 0)`,
`newBlock(parent A, hash B, no new runtime)`, `bestBlockChanged(B)`,
`finalized([B])` from the seed succeeds and yields a snapshot with
`finalized = best = B`, exactly the blocks `A` and `B`, `A` at refcount
0, `B` one level above `A`, and `B` inheriting `A`'s runtime id. -/
theorem C9_end_to_end :
    ((foldEvents seedState c9events).toOption.map (·.finalized) = some "B") ∧
    ((foldEvents seedState c9events).toOption.map (·.best) = some "B") ∧
    ((foldEvents seedState c9events).toOption.map (fun s => keysOf s.blocks)
      = some ["A", "B"]) ∧
    ((foldEvents seedState c9events).toOption.map
      (fun s => (mget s.blocks "A").map (·.refCount)) = some (some 0)) ∧
    ((foldEvents seedState c9events).toOption.map
      (fun s => (mget s.blocks "A").map (·.number)) = some (some 0)) ∧
    ((foldEvents seedState c9events).toOption.map
      (fun s => (mget s.blocks "B").map (·.number)) = some (some 1)) ∧
    ((foldEvents seedState c9events).toOption.map
      (fun s => (mget s.blocks "B").map (·.runtime)) = some (some "A")) ∧
    ((foldEvents seedState c9events).toOption.map
      (fun s => (mget s.blocks "A").map (·.runtime)) = some (some "A")) := by
  decide

/-- C4: the two-tick debounce.  For two consecutive ticks with collected
sets `cPrev` (at T0) and `cCur` (at T1), a hash is in the confirmed set
exactly when it was collected at both ticks — so a block collected at
only one tick is never emitted — and a block whose `refCount` is not
zero when T1's snapshot is read (for instance because a hold arrived
between T0 and T1) is not in T1's confirmed set. -/
theorem C4_two_tick_debounce (sPrev sCur : PinnedBlocks)
    (cPrev cCur : List String) (x : String)
    (hw : WFb sCur.blocks)
    (_hPrev : cleanerCollect sPrev = some cPrev)
    (hCur : cleanerCollect sCur = some cCur) :
    (x ∈ confirmedSet cPrev cCur ↔ x ∈ cCur ∧ x ∈ cPrev) ∧
    (∀ b, mget sCur.blocks x = some b → b.refCount ≠ 0 →
      x ∉ confirmedSet cPrev cCur) := by
  refine ⟨mem_confirmedSet, ?_⟩
  intro b hb hb0 hmem
  obtain ⟨hcur, _⟩ := mem_confirmedSet.mp hmem
  obtain ⟨root, p, _, hp, hp0, _⟩ := collected_block hw hCur hcur
  rw [hb] at hp
  cases hp
  exact hb0 hp0

theorem C4_two_tick_debounce_witness :
    "A" ∈ confirmedSet ["A"] ["A"] ↔ "A" ∈ ["A"] ∧ "A" ∈ ["A"] :=
  (C4_two_tick_debounce exS4 exS4h ["A"] ["A"] "A"
    (by decide) (by decide) (by decide)).1

/-- C10: the scheduler only ever collects strict parent-chain ancestors
of the finalized block.  Every hash of a confirmed-unpin set computed
from a snapshot names a strict ancestor of the finalized block reached
by following `parent` links; contrapositively, a block that is not on
that ancestry — a side fork, or a descendant of finalized — is never in
any emitted set, whatever its refcount. -/
theorem C10_emitted_are_finalized_ancestors {s : PinnedBlocks}
    {prev c : List String} {x : String}
    (hc : cleanerCollect s = some c) (hx : x ∈ confirmedSet prev c) :
    ∃ root, mget s.blocks s.finalized = some root ∧
      StrictAncestor s.blocks root x := by
  obtain ⟨hcur, _⟩ := mem_confirmedSet.mp hx
  obtain ⟨root, hroot, j, p, hpi, hph, _⟩ := mem_cleanerCollect hc hcur
  exact ⟨root, hroot, j, p, hpi, hph⟩

theorem C10_emitted_are_finalized_ancestors_witness :
    ∃ root, mget exS4.blocks exS4.finalized = some root ∧
      StrictAncestor exS4.blocks root "A" :=
  C10_emitted_are_finalized_ancestors
    ((by decide) : cleanerCollect exS4 = some ["A"])
    ((by decide) : "A" ∈ confirmedSet ["A"] ["A"])

/-- C7: a block is removed only at refcount zero.  In any reachable
state of the closed-loop system, a scheduler tick (the only producer of
`unpin` events, hence the only remover of blocks) keeps every tracked
block whose `refCount` is positive at the moment the fed-back unpin
event is folded: such a block is still tracked afterwards. -/
theorem C7_positive_refcount_never_removed {st st' : SysState}
    (hr : Reach st) (ht : tickStep st = .ok st') :
    ∀ x b, mget st.snap.blocks x = some b → 0 < b.refCount →
      mhas st'.snap.blocks x = true := by
  have hw := reach_WF hr
  intro x b hb hpos
  unfold tickStep at ht
  split at ht
  · cases ht
  · next c hc =>
    split at ht
    · cases ht
      unfold mhas
      rw [hb]
      rfl
    · split at ht
      · cases ht
      · next s2 ha =>
        cases ha
        cases ht
        by_cases hmem : x ∈ confirmedSet st.prevTick c
        · obtain ⟨hcur, _⟩ := mem_confirmedSet.mp hmem
          obtain ⟨root, p, _, hp, hp0, _⟩ := collected_block hw hc hcur
          rw [hb] at hp
          cases hp
          omega
        · show mhas (unpinBlocks st.snap.blocks _) x = true
          rw [mhas_unpinBlocks_not_mem hmem]
          unfold mhas
          rw [hb]
          rfl

theorem C7_positive_refcount_never_removed_witness :
    mhas exS6h.blocks "B" = true :=
  C7_positive_refcount_never_removed exReach5h rfl "B"
    ⟨"B", 1, "A", [], "A", 1⟩ (by decide) (by decide)

/-- C6: no removal targets the finalized block or the finalized-to-best
path.  In any reachable state of the closed-loop system, every hash of
the tick's confirmed-unpin set differs from `finalized` and does not lie
strictly between `finalized` and `best`, and consequently a tick never
removes `finalized` or such a block from the block map (the fed-back
`unpin` event is the only remover of blocks). -/
theorem C6_never_removes_finalized_or_between {st : SysState}
    {c : List String} (hr : Reach st)
    (hc : cleanerCollect st.snap = some c) :
    (∀ x ∈ confirmedSet st.prevTick c,
      x ≠ st.snap.finalized ∧ ¬ BetweenFinBest st.snap x) ∧
    (∀ st', tickStep st = .ok st' → ∀ x, mhas st.snap.blocks x = true →
      mhas st'.snap.blocks x = false →
      x ≠ st.snap.finalized ∧ ¬ BetweenFinBest st.snap x) := by
  have hw := reach_WF hr
  have hmain : ∀ x ∈ confirmedSet st.prevTick c,
      x ≠ st.snap.finalized ∧ ¬ BetweenFinBest st.snap x := by
    intro x hx
    obtain ⟨hcur, _⟩ := mem_confirmedSet.mp hx
    obtain ⟨root, p, hroot, hp, hp0, hlt⟩ := collected_block hw hc hcur
    constructor
    · rintro rfl
      rw [hroot] at hp
      cases hp
      exact absurd hlt (lt_irrefl _)
    · rintro ⟨bb, hb2, hbest, hancbb, hhb, hancfin⟩
      rw [hp] at hhb
      cases hhb
      obtain ⟨j2, q, hq, hqh⟩ := hancfin
      obtain ⟨hqmem, hqnum⟩ :=
        parentIter_mem_number hw (j2 + 1) x p q (mget_mem hp) hq
      have hqroot : mget st.snap.blocks st.snap.finalized = some q := by
        rw [← hqh]
        exact mget_eq_of_mem hw.1 hqmem
      rw [hroot] at hqroot
      cases hqroot
      omega
  refine ⟨hmain, ?_⟩
  intro st' ht x hbefore hafter
  unfold tickStep at ht
  split at ht
  · next hnone => rw [hc] at hnone; cases hnone
  · next c' hc' =>
    rw [hc] at hc'
    cases hc'
    split at ht
    · cases ht
      rw [hbefore] at hafter
      cases hafter
    · split at ht
      · cases ht
      · next s2 ha =>
        cases ha
        cases ht
        by_cases hmem : x ∈ confirmedSet st.prevTick c
        · exact hmain x hmem
        · rw [mhas_unpinBlocks_not_mem hmem] at hafter
          rw [hbefore] at hafter
          cases hafter

theorem C6_never_removes_finalized_or_between_witness :
    "A" ≠ exS4.finalized ∧ ¬ BetweenFinBest exS4 "A" :=
  (C6_never_removes_finalized_or_between exReach5
    ((by decide) : cleanerCollect exS4 = some ["A"])).1 "A" (by decide)
